import Mathlib

/-!
Shallow embedding of `parse.py` (spanish-words-cefr).

The program walks HTML curriculum pages and extracts, per proficiency
level, sets of lowercase Spanish words, deduplicated against a global
vocabulary set `all_words`.  We embed the pure content of the script:

* cell cleaning (`re.sub` of non-Spanish characters to spaces, space
  collapsing, stripping) and splitting on single spaces;
* the keep loop (line 74-77): a token is kept when it equals its own
  lowercase form and is not yet in `all_words`;
* per-row / per-page processing with counts, per-level word sets and the
  written csv records (whose word field is the literal string "word",
  line 81 of the source);
* the section/subsection attribution walk over heading nodes compared by
  source line (lines 47-55);
* the driver loop merging per-page results into `words_by_level` and the
  consolidated per-level output (lines 101-114);
* the trace of sink (file) operations performed by `parse`
  (open / write, lines 40-43 and 79-81; the source contains no close).

Python `set` objects are embedded as `Finset String`; iteration-order
independent facts only are stated about them.
-/

set_option maxRecDepth 8000

namespace SpanishWords

/-- Characters kept by the cleaning regex `[^a-zA-ZáéíóúÁÉÍÓÚñÑ ]`
(line 63-64 of the source): ASCII letters, the accented Spanish vowels,
`ñ`/`Ñ`.  The space is handled separately by `cleanChar`. -/
def isSpanishLetter (c : Char) : Bool :=
  ('a' ≤ c && c ≤ 'z') || ('A' ≤ c && c ≤ 'Z') ||
  c == 'á' || c == 'é' || c == 'í' || c == 'ó' || c == 'ú' ||
  c == 'Á' || c == 'É' || c == 'Í' || c == 'Ó' || c == 'Ú' ||
  c == 'ñ' || c == 'Ñ'

/-- Model of Python `str.lower` on one character, for the alphabet that
can occur in cleaned cells (ASCII letters and the Spanish accented
letters); other characters are returned unchanged. -/
def pyLowerChar (c : Char) : Char :=
  if 'A' ≤ c && c ≤ 'Z' then Char.ofNat (c.toNat + 32)
  else if c == 'Á' then 'á'
  else if c == 'É' then 'é'
  else if c == 'Í' then 'í'
  else if c == 'Ó' then 'ó'
  else if c == 'Ú' then 'ú'
  else if c == 'Ñ' then 'ñ'
  else c

/-- Model of Python `str.lower` (`word.lower()`, line 75). -/
def pyLower (s : String) : String :=
  String.mk (s.data.map pyLowerChar)

/-- First cleaning substitution (line 63-64): every character that is
not a Spanish letter and not a space is replaced by a space. -/
def cleanChar (c : Char) : Char :=
  if isSpanishLetter c || c == ' ' then c else ' '

/-- Second cleaning substitution `re.sub(r' +', ' ', ...)` (line 66):
every maximal run of spaces becomes a single space.  The boolean flag
records whether the previous emitted character was a space of a run. -/
def collapseAux : Bool → List Char → List Char
  | _, [] => []
  | prevSpace, c :: cs =>
    if c = ' ' then
      if prevSpace then collapseAux true cs
      else ' ' :: collapseAux true cs
    else c :: collapseAux false cs

def collapseSpaces (l : List Char) : List Char :=
  collapseAux false l

/-- Python `str.strip()` (line 66); after the first substitution the
only whitespace left is the space character. -/
def stripSpaces (l : List Char) : List Char :=
  (((l.dropWhile (fun c => c = ' ')).reverse.dropWhile (fun c => c = ' ')).reverse)

/-- The cleaned text of a cell (lines 63-66 of the source). -/
def cleanText (s : String) : String :=
  String.mk (stripSpaces (collapseSpaces (s.data.map cleanChar)))

/-- Python `str.split(' ')` (line 71): split at every single space. -/
def splitAux : List Char → List Char → List (List Char)
  | [], cur => [cur.reverse]
  | c :: cs, cur =>
    if c = ' ' then cur.reverse :: splitAux cs []
    else splitAux cs (c :: cur)

def splitSp (s : String) : List String :=
  (splitAux s.data []).map String.mk

/-- The token list the keep loop runs over for a raw cell: empty when
the cleaned text is empty (the `continue` of line 67-68), otherwise the
split of the cleaned text. -/
def tokensOf (raw : String) : List String :=
  if cleanText raw = "" then [] else splitSp (cleanText raw)

/-- The keep loop of lines 74-77: iterate over the token list carrying
the per-cell set `set_words` (first component) and the global set
`all_words` (second component); a token is kept when it equals its own
lowercase form and is not in `all_words`, and a kept token is added to
both sets. -/
def keepLoop : List String → Finset String → Finset String →
    Finset String × Finset String
  | [], setWords, allWords => (setWords, allWords)
  | w :: ws, setWords, allWords =>
    if w = pyLower w ∧ w ∉ allWords then
      keepLoop ws (insert w setWords) (insert w allWords)
    else
      keepLoop ws setWords allWords

/-- Specification set: the tokens of `ws` that are fully lowercase and
not in `A`. -/
def keptSpec (ws : List String) (A : Finset String) : Finset String :=
  ws.toFinset.filter (fun w => w = pyLower w ∧ w ∉ A)

/-- Specification set: the fully lowercase tokens of `ws`. -/
def lowerSpec (ws : List String) : Finset String :=
  ws.toFinset.filter (fun w => w = pyLower w)

theorem mem_keptSpec {x : String} {ws : List String} {A : Finset String} :
    x ∈ keptSpec ws A ↔ x ∈ ws ∧ (x = pyLower x ∧ x ∉ A) := by
  simp [keptSpec, Finset.mem_filter, List.mem_toFinset]

theorem mem_lowerSpec {x : String} {ws : List String} :
    x ∈ lowerSpec ws ↔ x ∈ ws ∧ x = pyLower x := by
  simp [lowerSpec, Finset.mem_filter, List.mem_toFinset]

theorem keepLoop_fst (ws : List String) (S A : Finset String) :
    (keepLoop ws S A).1 = S ∪ keptSpec ws A := by
  induction ws generalizing S A with
  | nil => simp [keepLoop, keptSpec]
  | cons w ws ih =>
    by_cases hw : w = pyLower w ∧ w ∉ A
    · rw [keepLoop, if_pos hw, ih]
      ext x
      simp only [Finset.mem_union, Finset.mem_insert, mem_keptSpec, List.mem_cons]
      constructor
      · rintro ((rfl | hS) | ⟨h1, h2, h3⟩)
        · exact Or.inr ⟨Or.inl rfl, hw.1, hw.2⟩
        · exact Or.inl hS
        · exact Or.inr ⟨Or.inr h1, h2, fun hxA => h3 (Or.inr hxA)⟩
      · rintro (hS | ⟨rfl | h1, h2, h3⟩)
        · exact Or.inl (Or.inr hS)
        · exact Or.inl (Or.inl rfl)
        · by_cases hxw : x = w
          · exact Or.inl (Or.inl hxw)
          · exact Or.inr ⟨h1, h2, fun hxA => hxA.elim hxw h3⟩
    · rw [keepLoop, if_neg hw, ih]
      ext x
      simp only [Finset.mem_union, mem_keptSpec, List.mem_cons]
      constructor
      · rintro (hS | ⟨h1, h2, h3⟩)
        · exact Or.inl hS
        · exact Or.inr ⟨Or.inr h1, h2, h3⟩
      · rintro (hS | ⟨rfl | h1, h2, h3⟩)
        · exact Or.inl hS
        · exact absurd ⟨h2, h3⟩ hw
        · exact Or.inr ⟨h1, h2, h3⟩

theorem keepLoop_snd (ws : List String) (S A : Finset String) :
    (keepLoop ws S A).2 = A ∪ lowerSpec ws := by
  induction ws generalizing S A with
  | nil => simp [keepLoop, lowerSpec]
  | cons w ws ih =>
    by_cases hw : w = pyLower w ∧ w ∉ A
    · rw [keepLoop, if_pos hw, ih]
      ext x
      simp only [Finset.mem_union, Finset.mem_insert, mem_lowerSpec, List.mem_cons]
      constructor
      · rintro ((rfl | hA) | ⟨h1, h2⟩)
        · exact Or.inr ⟨Or.inl rfl, hw.1⟩
        · exact Or.inl hA
        · exact Or.inr ⟨Or.inr h1, h2⟩
      · rintro (hA | ⟨rfl | h1, h2⟩)
        · exact Or.inl (Or.inr hA)
        · exact Or.inl (Or.inl rfl)
        · exact Or.inr ⟨h1, h2⟩
    · rw [keepLoop, if_neg hw, ih]
      ext x
      simp only [Finset.mem_union, mem_lowerSpec, List.mem_cons]
      constructor
      · rintro (hA | ⟨h1, h2⟩)
        · exact Or.inl hA
        · exact Or.inr ⟨Or.inr h1, h2⟩
      · rintro (hA | ⟨rfl | h1, h2⟩)
        · exact Or.inl hA
        · by_cases hxA : x ∈ A
          · exact Or.inl hxA
          · exact absurd ⟨h2, hxA⟩ hw
        · exact Or.inr ⟨h1, h2⟩

theorem union_keptSpec (ws : List String) (A : Finset String) :
    A ∪ keptSpec ws A = A ∪ lowerSpec ws := by
  ext x
  simp only [Finset.mem_union, mem_keptSpec, mem_lowerSpec]
  constructor
  · rintro (h | ⟨h1, h2, h3⟩)
    · exact Or.inl h
    · exact Or.inr ⟨h1, h2⟩
  · rintro (h | ⟨h1, h2⟩)
    · exact Or.inl h
    · by_cases hA : x ∈ A
      · exact Or.inl hA
      · exact Or.inr ⟨h1, h2, hA⟩

theorem keptSpec_empty_of_subset {ws : List String} {A : Finset String}
    (h : lowerSpec ws ⊆ A) : keptSpec ws A = ∅ := by
  ext x
  simp only [mem_keptSpec, Finset.not_mem_empty, iff_false, not_and]
  intro h1 h2
  rw [not_not]
  exact h (mem_lowerSpec.mpr ⟨h1, h2⟩)

theorem keptSpec_disjoint (ws : List String) (A : Finset String) :
    Disjoint (keptSpec ws A) A := by
  rw [Finset.disjoint_left]
  intro x hx
  exact (mem_keptSpec.mp hx).2.2

theorem keptSpec_subset_lowerSpec (ws : List String) (A : Finset String) :
    keptSpec ws A ⊆ lowerSpec ws := by
  intro x hx
  rcases mem_keptSpec.mp hx with ⟨h1, h2, h3⟩
  exact mem_lowerSpec.mpr ⟨h1, h2⟩

/-- A csv row written by `parse` (line 79-81 of the source).  The
source writes the literal text `"word"` as the third field — the loop
variable is not interpolated — so the `word` field below is built from
the literal, mirroring the f-string of line 81. -/
structure WordRecord where
  sec : String
  sub : String
  word : String
deriving DecidableEq

/-- Result of processing one table cell (lines 61-83 of the source for
one value of `i`): the csv records written, the per-cell kept set
`set_words`, the updated global `all_words`, and the increment added to
`counts[i]`. -/
structure CellResult where
  records : List WordRecord
  kept : Finset String
  allWords : Finset String
  countInc : Nat
deriving DecidableEq

/-- Processing of one table cell (lines 63-83): clean, skip when empty,
split, run the keep loop, then write one csv row per kept word (the row
text does not depend on the word, so the row list is a replication),
and report `len(set_words)` as the count increment. -/
def processCell (sec sub raw : String) (A : Finset String) : CellResult :=
  let t := cleanText raw
  if t = "" then ⟨[], ∅, A, 0⟩
  else
    let p := keepLoop (splitSp t) ∅ A
    ⟨List.replicate p.1.card ⟨sec, sub, "word"⟩, p.1, p.2, p.1.card⟩

/-- The lowercase tokens contributed by a raw cell text. -/
def cellLower (raw : String) : Finset String :=
  lowerSpec (tokensOf raw)

theorem processCell_kept (sec sub raw : String) (A : Finset String) :
    (processCell sec sub raw A).kept = keptSpec (tokensOf raw) A := by
  by_cases h : cleanText raw = ""
  · simp [processCell, tokensOf, h, keptSpec]
  · simp [processCell, tokensOf, h, keepLoop_fst]

theorem processCell_allWords (sec sub raw : String) (A : Finset String) :
    (processCell sec sub raw A).allWords = A ∪ cellLower raw := by
  by_cases h : cleanText raw = ""
  · simp [processCell, cellLower, tokensOf, h, lowerSpec]
  · simp [processCell, cellLower, tokensOf, h, keepLoop_snd]

theorem processCell_allWords_kept (sec sub raw : String) (A : Finset String) :
    (processCell sec sub raw A).allWords = A ∪ (processCell sec sub raw A).kept := by
  rw [processCell_allWords, processCell_kept, union_keptSpec]
  rfl

theorem processCell_countInc (sec sub raw : String) (A : Finset String) :
    (processCell sec sub raw A).countInc = (processCell sec sub raw A).kept.card := by
  by_cases h : cleanText raw = ""
  · simp [processCell, h]
  · simp [processCell, h]

theorem processCell_records (sec sub raw : String) (A : Finset String) :
    (processCell sec sub raw A).records =
      List.replicate (processCell sec sub raw A).kept.card ⟨sec, sub, "word"⟩ := by
  by_cases h : cleanText raw = ""
  · simp [processCell, h]
  · simp [processCell, h]

/-- One table row of the source page: the section and subsection
headings it sits under (lines 48 and 53), and the raw texts of its two
`td` cells (line 60-61), index 0 first. -/
abbrev Row := (String × String) × (String × String)

/-- The state threaded through `parse` while walking one page: the
global `all_words`, the two per-level counters `counts` (line 45), the
two per-level word sets `words_in_page_by_level` (line 46), and the
lists of csv rows written to the two output sinks. -/
structure PageState where
  allWords : Finset String
  counts : Nat × Nat
  words0 : Finset String
  words1 : Finset String
  recs0 : List WordRecord
  recs1 : List WordRecord
deriving DecidableEq

/-- Initial page state: `counts = [0, 0]`,
`words_in_page_by_level = [set(), set()]` (lines 45-46). -/
def initPage (A : Finset String) : PageState :=
  ⟨A, (0, 0), ∅, ∅, [], []⟩

/-- One iteration of the row loop (lines 57-84): cell 0 then cell 1,
each updating `all_words`, its own counter, word set and sink. -/
def processRow (sec sub c0 c1 : String) (st : PageState) : PageState :=
  let r0 := processCell sec sub c0 st.allWords
  let r1 := processCell sec sub c1 r0.allWords
  ⟨r1.allWords,
   (st.counts.1 + r0.countInc, st.counts.2 + r1.countInc),
   st.words0 ∪ r0.kept,
   st.words1 ∪ r1.kept,
   st.recs0 ++ r0.records,
   st.recs1 ++ r1.records⟩

/-- The row traversal of `parse`, with the rows already flattened in
document order, each tagged by its section and subsection. -/
def parseRows : List Row → PageState → PageState
  | [], st => st
  | r :: rest, st => parseRows rest (processRow r.1.1 r.1.2 r.2.1 r.2.2 st)

/-- The word-collecting portion of one `parse` call. -/
def parsePage (rows : List Row) (A : Finset String) : PageState :=
  parseRows rows (initPage A)

/-- The lowercase tokens contributed by all cells of a row list. -/
def rowsLower : List Row → Finset String
  | [] => ∅
  | r :: rest => cellLower r.2.1 ∪ cellLower r.2.2 ∪ rowsLower rest

theorem processRow_allWords (sec sub c0 c1 : String) (st : PageState) :
    (processRow sec sub c0 c1 st).allWords =
      st.allWords ∪ (cellLower c0 ∪ cellLower c1) := by
  simp only [processRow, processCell_allWords, Finset.union_assoc]

theorem parseRows_allWords (rows : List Row) (st : PageState) :
    (parseRows rows st).allWords = st.allWords ∪ rowsLower rows := by
  induction rows generalizing st with
  | nil => simp [parseRows, rowsLower]
  | cons r rest ih =>
    rw [parseRows, ih, processRow_allWords, rowsLower, Finset.union_assoc]

theorem processRow_stable (sec sub c0 c1 : String) (st : PageState)
    (h0 : cellLower c0 ⊆ st.allWords) (h1 : cellLower c1 ⊆ st.allWords) :
    processRow sec sub c0 c1 st = st := by
  cases st with
  | mk A c w0 w1 rs0 rs1 =>
    have h0' : cellLower c0 ⊆ A := h0
    have h1' : cellLower c1 ⊆ A := h1
    have k0 : (processCell sec sub c0 A).kept = ∅ := by
      rw [processCell_kept]; exact keptSpec_empty_of_subset h0'
    have a0 : (processCell sec sub c0 A).allWords = A := by
      rw [processCell_allWords]; exact Finset.union_eq_left.mpr h0'
    have k1 : (processCell sec sub c1 A).kept = ∅ := by
      rw [processCell_kept]; exact keptSpec_empty_of_subset h1'
    have a1 : (processCell sec sub c1 A).allWords = A := by
      rw [processCell_allWords]; exact Finset.union_eq_left.mpr h1'
    have c0i : (processCell sec sub c0 A).countInc = 0 := by
      rw [processCell_countInc, k0]; rfl
    have c1i : (processCell sec sub c1 A).countInc = 0 := by
      rw [processCell_countInc, k1]; rfl
    have r0r : (processCell sec sub c0 A).records = [] := by
      rw [processCell_records, k0]; rfl
    have r1r : (processCell sec sub c1 A).records = [] := by
      rw [processCell_records, k1]; rfl
    simp only [processRow, a0, k0, a1, k1, c0i, c1i, r0r, r1r]
    simp

theorem parseRows_stable (rows : List Row) (st : PageState)
    (h : rowsLower rows ⊆ st.allWords) :
    parseRows rows st = st := by
  induction rows generalizing st with
  | nil => rfl
  | cons r rest ih =>
    rw [rowsLower] at h
    have h2 := Finset.union_subset_iff.mp h
    have h01 := Finset.union_subset_iff.mp h2.1
    have hr : processRow r.1.1 r.1.2 r.2.1 r.2.2 st = st :=
      processRow_stable _ _ _ _ st h01.1 h01.2
    rw [parseRows, hr]
    exact ih st h2.2

/-- One source document of the driver list (lines 92-99): its two level
tags, in page order, and its rows.  The url and page number do not
influence which words are collected. -/
structure Doc where
  level0 : String
  level1 : String
  rows : List Row

/-- Global driver state: `all_words` (line 4) and `words_by_level`
(lines 6-8), the latter total over level tags. -/
structure GState where
  allWords : Finset String
  byLevel : String → Finset String

/-- The six level tags (line 5). -/
def all_levels : List String := ["A1", "A2", "B1", "B2", "C1", "C2"]

/-- Line 4 of the source, `all_words = set('')`: the set of the
characters of the empty string, i.e. the empty set of words. -/
def all_words_init : Finset String := ∅

/-- The state at the start of the run (lines 4-8). -/
def initG : GState := ⟨all_words_init, fun _ => ∅⟩

/-- `words_by_level[L].update(w)` (line 107) as a function update. -/
def updateLevel (f : String → Finset String) (L : String) (w : Finset String) :
    String → Finset String :=
  fun L' => if L' = L then f L' ∪ w else f L'

/-- One iteration of the driver loop (lines 101-107): run `parse` on the
document, then merge the two returned per-level sets into
`words_by_level` under the document's two level tags. -/
def runDoc (g : GState) (d : Doc) : GState :=
  let st := parsePage d.rows g.allWords
  ⟨st.allWords,
   updateLevel (updateLevel g.byLevel d.level0 st.words0) d.level1 st.words1⟩

/-- The whole driver loop over a document list. -/
def runDocs (ds : List Doc) (g : GState) : GState :=
  ds.foldl runDoc g

/-- The per-document per-level word sets returned by the successive
`parse` calls (`result[i]` of lines 105-107), each tagged with the
level it is attributed to, with `all_words` threaded through. -/
def runResults : List Doc → Finset String → List (String × Finset String)
  | [], _ => []
  | d :: ds, A =>
    let st := parsePage d.rows A
    (d.level0, st.words0) :: (d.level1, st.words1) :: runResults ds st.allWords

/-- Union of the result sets attributed to level `L`. -/
def attributedUnion (L : String) : List (String × Finset String) → Finset String
  | [] => ∅
  | p :: rest => (if p.1 = L then p.2 else ∅) ∪ attributedUnion L rest

theorem mem_updateLevel {x : String} (f : String → Finset String)
    (L : String) (w : Finset String) (L' : String) :
    x ∈ updateLevel f L w L' ↔ x ∈ f L' ∨ (L' = L ∧ x ∈ w) := by
  unfold updateLevel
  by_cases h : L' = L
  · simp [h]
  · simp [h]

theorem mem_attributedUnion {x : String} (L : String)
    (p : String × Finset String) (rest : List (String × Finset String)) :
    x ∈ attributedUnion L (p :: rest) ↔
      (p.1 = L ∧ x ∈ p.2) ∨ x ∈ attributedUnion L rest := by
  rw [attributedUnion]
  by_cases h : p.1 = L
  · simp [h]
  · simp [h]

theorem runDocs_byLevel (L : String) (ds : List Doc) (g : GState) :
    (runDocs ds g).byLevel L =
      g.byLevel L ∪ attributedUnion L (runResults ds g.allWords) := by
  induction ds generalizing g with
  | nil => simp [runDocs, runResults, attributedUnion]
  | cons d ds ih =>
    have hc : runDocs (d :: ds) g = runDocs ds (runDoc g d) := rfl
    rw [hc, ih]
    have ha : (runDoc g d).allWords = (parsePage d.rows g.allWords).allWords := rfl
    have hb : (runDoc g d).byLevel =
        updateLevel (updateLevel g.byLevel d.level0 (parsePage d.rows g.allWords).words0)
          d.level1 (parsePage d.rows g.allWords).words1 := rfl
    rw [ha, hb, runResults]
    ext x
    simp only [Finset.mem_union, mem_updateLevel, mem_attributedUnion]
    constructor
    · rintro (((h | ⟨h1, h2⟩) | ⟨h1, h2⟩) | h)
      · exact Or.inl h
      · exact Or.inr (Or.inl ⟨h1.symm, h2⟩)
      · exact Or.inr (Or.inr (Or.inl ⟨h1.symm, h2⟩))
      · exact Or.inr (Or.inr (Or.inr h))
    · rintro (h | ⟨h1, h2⟩ | ⟨h1, h2⟩ | h)
      · exact Or.inl (Or.inl (Or.inl h))
      · exact Or.inl (Or.inl (Or.inr ⟨h1.symm, h2⟩))
      · exact Or.inl (Or.inr ⟨h1.symm, h2⟩)
      · exact Or.inr h

theorem union_rearrange (a b c d e : Finset String) :
    (((a ∪ b) ∪ c) ∪ d) ∪ e = (a ∪ (b ∪ d)) ∪ (c ∪ e) := by
  ext x
  simp only [Finset.mem_union]
  tauto

set_option maxHeartbeats 1000000 in
theorem processRow_inv (sec sub c0 c1 : String) (A0 : Finset String) (st : PageState)
    (hall : st.allWords = A0 ∪ st.words0 ∪ st.words1)
    (hdisj : Disjoint st.words0 st.words1)
    (hd0 : Disjoint st.words0 A0) (hd1 : Disjoint st.words1 A0) :
    (processRow sec sub c0 c1 st).allWords =
        A0 ∪ (processRow sec sub c0 c1 st).words0 ∪ (processRow sec sub c0 c1 st).words1
    ∧ Disjoint (processRow sec sub c0 c1 st).words0 (processRow sec sub c0 c1 st).words1
    ∧ Disjoint (processRow sec sub c0 c1 st).words0 A0
    ∧ Disjoint (processRow sec sub c0 c1 st).words1 A0 := by
  have hw0 : (processRow sec sub c0 c1 st).words0 =
      st.words0 ∪ (processCell sec sub c0 st.allWords).kept := rfl
  have hw1 : (processRow sec sub c0 c1 st).words1 =
      st.words1 ∪ (processCell sec sub c1 (processCell sec sub c0 st.allWords).allWords).kept := rfl
  have haw : (processRow sec sub c0 c1 st).allWords =
      (processCell sec sub c1 (processCell sec sub c0 st.allWords).allWords).allWords := rfl
  have hA1e : (processCell sec sub c0 st.allWords).allWords =
      st.allWords ∪ (processCell sec sub c0 st.allWords).kept :=
    processCell_allWords_kept sec sub c0 st.allWords
  have hA2e : (processCell sec sub c1 (processCell sec sub c0 st.allWords).allWords).allWords =
      (processCell sec sub c0 st.allWords).allWords ∪
        (processCell sec sub c1 (processCell sec sub c0 st.allWords).allWords).kept :=
    processCell_allWords_kept sec sub c1 (processCell sec sub c0 st.allWords).allWords
  have hdK0 : Disjoint (processCell sec sub c0 st.allWords).kept st.allWords := by
    rw [processCell_kept]; exact keptSpec_disjoint _ _
  have hdK1 : Disjoint
      (processCell sec sub c1 (processCell sec sub c0 st.allWords).allWords).kept
      (processCell sec sub c0 st.allWords).allWords := by
    rw [processCell_kept]; exact keptSpec_disjoint _ _
  set K0 := (processCell sec sub c0 st.allWords).kept with hK0def
  set A1 := (processCell sec sub c0 st.allWords).allWords with hA1def
  set K1 := (processCell sec sub c1 A1).kept with hK1def
  rw [Finset.disjoint_left] at hdisj hd0 hd1 hdK0 hdK1
  have hmem_all : ∀ x, x ∈ st.allWords ↔ x ∈ A0 ∨ x ∈ st.words0 ∨ x ∈ st.words1 := by
    intro x; rw [hall]; simp [Finset.mem_union, or_assoc]
  have hmem_A1 : ∀ x, x ∈ A1 ↔ x ∈ st.allWords ∨ x ∈ K0 := by
    intro x; rw [hA1e]; simp [Finset.mem_union]
  refine ⟨?_, ?_, ?_, ?_⟩
  · rw [haw, hA2e, hA1e, hw0, hw1, hall]
    exact union_rearrange _ _ _ _ _
  · rw [hw0, hw1, Finset.disjoint_left]
    intro x hx hx'
    simp only [Finset.mem_union] at hx hx'
    rcases hx with h | h <;> rcases hx' with h' | h'
    · exact hdisj h h'
    · exact hdK1 h' ((hmem_A1 x).mpr (Or.inl ((hmem_all x).mpr (Or.inr (Or.inl h)))))
    · exact hdK0 h ((hmem_all x).mpr (Or.inr (Or.inr h')))
    · exact hdK1 h' ((hmem_A1 x).mpr (Or.inr h))
  · rw [hw0, Finset.disjoint_left]
    intro x hx hx'
    simp only [Finset.mem_union] at hx
    rcases hx with h | h
    · exact hd0 h hx'
    · exact hdK0 h ((hmem_all x).mpr (Or.inl hx'))
  · rw [hw1, Finset.disjoint_left]
    intro x hx hx'
    simp only [Finset.mem_union] at hx
    rcases hx with h | h
    · exact hd1 h hx'
    · exact hdK1 h ((hmem_A1 x).mpr (Or.inl ((hmem_all x).mpr (Or.inl hx'))))

theorem parseRows_inv (A0 : Finset String) (rows : List Row) (st : PageState)
    (hall : st.allWords = A0 ∪ st.words0 ∪ st.words1)
    (hdisj : Disjoint st.words0 st.words1)
    (hd0 : Disjoint st.words0 A0) (hd1 : Disjoint st.words1 A0) :
    (parseRows rows st).allWords =
        A0 ∪ (parseRows rows st).words0 ∪ (parseRows rows st).words1
    ∧ Disjoint (parseRows rows st).words0 (parseRows rows st).words1
    ∧ Disjoint (parseRows rows st).words0 A0
    ∧ Disjoint (parseRows rows st).words1 A0 := by
  induction rows generalizing st with
  | nil => exact ⟨hall, hdisj, hd0, hd1⟩
  | cons r rest ih =>
    rw [parseRows]
    have hstep := processRow_inv r.1.1 r.1.2 r.2.1 r.2.2 A0 st hall hdisj hd0 hd1
    exact ih _ hstep.1 hstep.2.1 hstep.2.2.1 hstep.2.2.2

theorem parsePage_inv (rows : List Row) (A : Finset String) :
    (parsePage rows A).allWords =
        A ∪ (parsePage rows A).words0 ∪ (parsePage rows A).words1
    ∧ Disjoint (parsePage rows A).words0 (parsePage rows A).words1
    ∧ Disjoint (parsePage rows A).words0 A
    ∧ Disjoint (parsePage rows A).words1 A := by
  apply parseRows_inv <;> simp [initPage]

/-- Union of `words_by_level` over a list of level tags. -/
def listUnion (ls : List String) (f : String → Finset String) : Finset String :=
  ls.foldr (fun L acc => f L ∪ acc) ∅

theorem mem_listUnion {x : String} (ls : List String) (f : String → Finset String) :
    x ∈ listUnion ls f ↔ ∃ L, L ∈ ls ∧ x ∈ f L := by
  induction ls with
  | nil => simp [listUnion]
  | cons L rest ih =>
    have hc : listUnion (L :: rest) f = f L ∪ listUnion rest f := rfl
    rw [hc]
    simp only [Finset.mem_union, ih, List.mem_cons]
    constructor
    · rintro (h | ⟨L', h1, h2⟩)
      · exact ⟨L, Or.inl rfl, h⟩
      · exact ⟨L', Or.inr h1, h2⟩
    · rintro ⟨L', rfl | h1, h2⟩
      · exact Or.inl h2
      · exact Or.inr ⟨L', h1, h2⟩

theorem listUnion_card (ls : List String) (f : String → Finset String)
    (hnd : ls.Nodup)
    (hdisj : ∀ L1, L1 ∈ ls → ∀ L2, L2 ∈ ls → L1 ≠ L2 → Disjoint (f L1) (f L2)) :
    (listUnion ls f).card = (ls.map (fun L => (f L).card)).sum := by
  induction ls with
  | nil => simp [listUnion]
  | cons L rest ih =>
    have hnd' := List.nodup_cons.mp hnd
    have hd : Disjoint (f L) (listUnion rest f) := by
      rw [Finset.disjoint_left]
      intro x hx hx'
      rcases (mem_listUnion rest f).mp hx' with ⟨L', hL', hx''⟩
      have hne : L ≠ L' := fun he => hnd'.1 (he ▸ hL')
      exact (Finset.disjoint_left.mp
        (hdisj L (by simp) L' (by simp [hL']) hne)) hx hx''
    have hc : listUnion (L :: rest) f = f L ∪ listUnion rest f := rfl
    rw [hc, Finset.card_union_of_disjoint hd,
      ih hnd'.2 (fun L1 h1 L2 h2 hne =>
        hdisj L1 (List.mem_cons_of_mem _ h1) L2 (List.mem_cons_of_mem _ h2) hne)]
    simp

/-- Invariant of the driver state: the per-level sets are pairwise
disjoint, their union over the six level tags is exactly `all_words`,
and each one is contained in `all_words`. -/
def GInv (g : GState) : Prop :=
  (∀ L1 L2, L1 ≠ L2 → Disjoint (g.byLevel L1) (g.byLevel L2))
  ∧ listUnion all_levels g.byLevel = g.allWords
  ∧ ∀ L, g.byLevel L ⊆ g.allWords

theorem GInv_initG : GInv initG := by
  refine ⟨fun L1 L2 h => by simp [initG], ?_, fun L => by simp [initG]⟩
  · ext x
    simp [mem_listUnion, initG, all_words_init]

theorem runDoc_inv (g : GState) (d : Doc)
    (h0 : d.level0 ∈ all_levels) (h1 : d.level1 ∈ all_levels)
    (hg : GInv g) : GInv (runDoc g d) := by
  obtain ⟨hpair, hun, hsub⟩ := hg
  obtain ⟨hall, hdisj, hd0, hd1⟩ := parsePage_inv d.rows g.allWords
  have hbw : (runDoc g d).byLevel =
      updateLevel (updateLevel g.byLevel d.level0 (parsePage d.rows g.allWords).words0)
        d.level1 (parsePage d.rows g.allWords).words1 := rfl
  have haw : (runDoc g d).allWords = (parsePage d.rows g.allWords).allWords := rfl
  have hmem : ∀ x L, x ∈ (runDoc g d).byLevel L ↔
      x ∈ g.byLevel L ∨ (L = d.level0 ∧ x ∈ (parsePage d.rows g.allWords).words0)
        ∨ (L = d.level1 ∧ x ∈ (parsePage d.rows g.allWords).words1) := by
    intro x L
    rw [hbw]
    simp only [mem_updateLevel]
    tauto
  have hw0A : Disjoint (parsePage d.rows g.allWords).words0 g.allWords := hd0
  have hw1A : Disjoint (parsePage d.rows g.allWords).words1 g.allWords := hd1
  rw [Finset.disjoint_left] at hdisj hw0A hw1A
  refine ⟨?_, ?_, ?_⟩
  · intro L1 L2 hne
    rw [Finset.disjoint_left]
    intro x hx hx'
    rw [hmem] at hx hx'
    rcases hx with h | ⟨he, h⟩ | ⟨he, h⟩ <;> rcases hx' with h' | ⟨he', h'⟩ | ⟨he', h'⟩
    · exact Finset.disjoint_left.mp (hpair L1 L2 hne) h h'
    · exact hw0A h' (hsub L1 h)
    · exact hw1A h' (hsub L1 h)
    · exact hw0A h (hsub L2 h')
    · exact hne (he.trans he'.symm)
    · exact hdisj h h'
    · exact hw1A h (hsub L2 h')
    · exact hdisj h' h
    · exact hne (he.trans he'.symm)
  · rw [haw, hall]
    ext x
    rw [mem_listUnion]
    simp only [Finset.mem_union]
    constructor
    · rintro ⟨L, hL, hx⟩
      rw [hmem] at hx
      rcases hx with h | ⟨rfl, h⟩ | ⟨rfl, h⟩
      · exact Or.inl (Or.inl (hun ▸ (mem_listUnion all_levels g.byLevel).mpr ⟨L, hL, h⟩))
      · exact Or.inl (Or.inr h)
      · exact Or.inr h
    · rintro ((h | h) | h)
      · rcases (mem_listUnion all_levels g.byLevel).mp (hun ▸ h) with ⟨L, hL, hx⟩
        exact ⟨L, hL, (hmem x L).mpr (Or.inl hx)⟩
      · exact ⟨d.level0, h0, (hmem x d.level0).mpr (Or.inr (Or.inl ⟨rfl, h⟩))⟩
      · exact ⟨d.level1, h1, (hmem x d.level1).mpr (Or.inr (Or.inr ⟨rfl, h⟩))⟩
  · intro L x hx
    rw [hmem] at hx
    rw [haw, hall]
    simp only [Finset.mem_union]
    rcases hx with h | ⟨he, h⟩ | ⟨he, h⟩
    · exact Or.inl (Or.inl (hsub L h))
    · exact Or.inl (Or.inr h)
    · exact Or.inr h

theorem runDocs_inv (ds : List Doc) (g : GState)
    (h : ∀ d, d ∈ ds → d.level0 ∈ all_levels ∧ d.level1 ∈ all_levels)
    (hg : GInv g) : GInv (runDocs ds g) := by
  induction ds generalizing g with
  | nil => exact hg
  | cons d ds ih =>
    have hc : runDocs (d :: ds) g = runDocs ds (runDoc g d) := rfl
    rw [hc]
    exact ih (runDoc g d)
      (fun d' hd' => h d' (List.mem_cons_of_mem _ hd'))
      (runDoc_inv g d (h d (by simp)).1 (h d (by simp)).2 hg)

theorem runDocs_allWords_mono (ds : List Doc) (g : GState) :
    g.allWords ⊆ (runDocs ds g).allWords := by
  induction ds generalizing g with
  | nil => exact Finset.Subset.refl _
  | cons d ds ih =>
    have hc : runDocs (d :: ds) g = runDocs ds (runDoc g d) := rfl
    rw [hc]
    refine Finset.Subset.trans ?_ (ih (runDoc g d))
    have haw : (runDoc g d).allWords = (parsePage d.rows g.allWords).allWords := rfl
    rw [haw, parsePage]
    rw [parseRows_allWords]
    exact Finset.subset_union_left

/-- A node of the parsed page relevant to the structural walk of
lines 44-55: its tag name (`h2`, `h3`, ...), its text and its source
line number.  Following the spec's document model, headings are
siblings in document order, so `find_next` and `find_next_sibling`
coincide and the document is a flat node list. -/
structure Node where
  tag : String
  txt : String
  line : Nat
deriving DecidableEq

/-- Tag of the node at index `i` (empty string past the end). -/
def tagAt (doc : List Node) (i : Nat) : String :=
  match doc.get? i with
  | some n => n.tag
  | none => ""

/-- `sourceline` of the node at index `i` (0 past the end). -/
def lineAt (doc : List Node) (i : Nat) : Nat :=
  match doc.get? i with
  | some n => n.line
  | none => 0

/-- Scan for the first node carrying `tag` at index `j` or later.  The
fuel argument only bounds the recursion; `doc.length` is always
enough. -/
def findFromF (doc : List Node) (tag : String) : Nat → Nat → Option Nat
  | 0, _ => none
  | fuel + 1, j =>
    if h : j < doc.length then
      if (doc.get ⟨j, h⟩).tag = tag then some j else findFromF doc tag fuel (j + 1)
    else none

/-- `soup.find(tag)` (lines 35 and 44): first node with the tag. -/
def findFirst (doc : List Node) (tag : String) : Option Nat :=
  findFromF doc tag doc.length 0

/-- `node.find_next(tag)` and `node.find_next_sibling(tag)` (lines
49-50, 54-55): first node with the tag strictly after index `i`; the
two DOM queries agree on the flat sibling model. -/
def findNext (doc : List Node) (tag : String) (i : Nat) : Option Nat :=
  findFromF doc tag doc.length (i + 1)

/-- The guard of line 52, `h2 is None or h3.sourceline < h2.sourceline`,
as a boolean on the optional next-section index. -/
def beforeNext (doc : List Node) (h2n : Option Nat) (k : Nat) : Bool :=
  match h2n with
  | none => true
  | some j => decide (lineAt doc k < lineAt doc j)

/-- The inner `h3` loop of lines 52-55: keep taking the current `h3`
while it exists and lies before the next section heading, stepping to
the next `h3` sibling. -/
def collectSubs (doc : List Node) : Nat → Option Nat → Option Nat → List Nat
  | 0, _, _ => []
  | _ + 1, _, none => []
  | fuel + 1, h2n, some k =>
    if beforeNext doc h2n k then
      k :: collectSubs doc fuel h2n (findNext doc "h3" k)
    else []

/-- The outer `h2` loop of lines 47-55: for each section heading,
gather the attributed subsection headings, then move to the next
section heading. -/
def sectionsWalk (doc : List Node) : Nat → Option Nat → List (Nat × List Nat)
  | 0, _ => []
  | _ + 1, none => []
  | fuel + 1, some i =>
    (i, collectSubs doc doc.length (findNext doc "h2" i) (findNext doc "h3" i)) ::
      sectionsWalk doc fuel (findNext doc "h2" i)

/-- The section walk of `parse` (lines 44-55): for every section
heading index, the list of subsection heading indices attributed to
it. -/
def parseSections (doc : List Node) : List (Nat × List Nat) :=
  sectionsWalk doc doc.length (findFirst doc "h2")

/-- The attribution bound of the claim: no bound when there is no next
section heading, otherwise strictly smaller source line. -/
def okBound (doc : List Node) : Option Nat → Nat → Prop
  | none, _ => True
  | some j, k => lineAt doc k < lineAt doc j

theorem tagAt_of_lt {doc : List Node} {j : Nat} (hj : j < doc.length) :
    tagAt doc j = (doc.get ⟨j, hj⟩).tag := by
  simp [tagAt, List.get?_eq_get hj, List.getElem?_eq_getElem hj]

theorem beforeNext_iff (doc : List Node) (h2n : Option Nat) (k : Nat) :
    beforeNext doc h2n k = true ↔ okBound doc h2n k := by
  cases h2n <;> simp [beforeNext, okBound]

theorem findFromF_some (doc : List Node) (tag : String) (k : Nat) :
    ∀ fuel j, findFromF doc tag fuel j = some k →
      j ≤ k ∧ k < doc.length ∧ tagAt doc k = tag := by
  intro fuel
  induction fuel with
  | zero => intro j h; exact Option.noConfusion h
  | succ fuel ih =>
    intro j h
    rw [findFromF] at h
    by_cases hj : j < doc.length
    · rw [dif_pos hj] at h
      by_cases ht : (doc.get ⟨j, hj⟩).tag = tag
      · rw [if_pos ht] at h
        injection h with h'
        subst h'
        exact ⟨Nat.le_refl _, hj, by rw [tagAt_of_lt hj]; exact ht⟩
      · rw [if_neg ht] at h
        obtain ⟨h1, h2, h3⟩ := ih (j + 1) h
        exact ⟨Nat.le_of_succ_le h1, h2, h3⟩
    · rw [dif_neg hj] at h
      exact Option.noConfusion h

theorem findFromF_least (doc : List Node) (tag : String) (k : Nat) :
    ∀ fuel j, findFromF doc tag fuel j = some k →
      ∀ m, j ≤ m → m < k → tagAt doc m ≠ tag := by
  intro fuel
  induction fuel with
  | zero => intro j h; exact Option.noConfusion h
  | succ fuel ih =>
    intro j h
    rw [findFromF] at h
    by_cases hj : j < doc.length
    · rw [dif_pos hj] at h
      by_cases ht : (doc.get ⟨j, hj⟩).tag = tag
      · rw [if_pos ht] at h
        injection h with h'
        subst h'
        intro m h1 h2
        omega
      · rw [if_neg ht] at h
        intro m h1 h2
        rcases Nat.eq_or_lt_of_le h1 with rfl | h1'
        · rw [tagAt_of_lt hj]; exact ht
        · exact ih (j + 1) h m h1' h2
    · rw [dif_neg hj] at h
      exact Option.noConfusion h

theorem findFromF_none (doc : List Node) (tag : String) :
    ∀ fuel j, doc.length ≤ fuel + j → findFromF doc tag fuel j = none →
      ∀ m, j ≤ m → m < doc.length → tagAt doc m ≠ tag := by
  intro fuel
  induction fuel with
  | zero => intro j hfuel h m h1 h2; omega
  | succ fuel ih =>
    intro j hfuel h m h1 h2
    rw [findFromF] at h
    by_cases hj : j < doc.length
    · rw [dif_pos hj] at h
      by_cases ht : (doc.get ⟨j, hj⟩).tag = tag
      · rw [if_pos ht] at h; exact Option.noConfusion h
      · rw [if_neg ht] at h
        rcases Nat.eq_or_lt_of_le h1 with rfl | h1'
        · rw [tagAt_of_lt hj]; exact ht
        · exact ih (j + 1) (by omega) h m h1' h2
    · omega

theorem collectSubs_mem (doc : List Node)
    (hmono : ∀ b, b < doc.length → ∀ a, a < b → lineAt doc a < lineAt doc b)
    (jOpt : Option Nat) :
    ∀ fuel m, doc.length - m ≤ fuel →
      ∀ k, k ∈ collectSubs doc fuel jOpt (findNext doc "h3" m) ↔
        (m < k ∧ k < doc.length ∧ tagAt doc k = "h3" ∧ okBound doc jOpt k) := by
  intro fuel
  induction fuel with
  | zero =>
    intro m hm k
    constructor
    · intro h
      simp [collectSubs] at h
    · rintro ⟨h1, h2, h3, h4⟩
      exfalso
      omega
  | succ fuel ih =>
    intro m hm k
    cases hk0 : findNext doc "h3" m with
    | none =>
      have hnone := findFromF_none doc "h3" doc.length (m + 1) (by omega) hk0
      constructor
      · intro h
        simp [collectSubs] at h
      · rintro ⟨h1, h2, h3, h4⟩
        exact absurd h3 (hnone k (by omega) h2)
    | some k0 =>
      obtain ⟨hk1, hk2, hk3⟩ := findFromF_some doc "h3" k0 doc.length (m + 1) hk0
      have hleast := findFromF_least doc "h3" k0 doc.length (m + 1) hk0
      rw [collectSubs]
      by_cases hb : beforeNext doc jOpt k0 = true
      · rw [if_pos hb, List.mem_cons, ih k0 (by omega) k]
        constructor
        · rintro (rfl | ⟨h1, h2, h3, h4⟩)
          · exact ⟨by omega, hk2, hk3, (beforeNext_iff doc jOpt k).mp hb⟩
          · exact ⟨by omega, h2, h3, h4⟩
        · rintro ⟨h1, h2, h3, h4⟩
          rcases Nat.lt_or_ge k k0 with hlt | hge
          · exact absurd h3 (hleast k (by omega) hlt)
          · rcases Nat.eq_or_lt_of_le hge with rfl | hgt
            · exact Or.inl rfl
            · exact Or.inr ⟨hgt, h2, h3, h4⟩
      · rw [if_neg hb]
        constructor
        · intro h
          exact absurd h (List.not_mem_nil k)
        · rintro ⟨h1, h2, h3, h4⟩
          exfalso
          rcases jOpt with _ | j
          · exact hb (by simp [beforeNext])
          · simp only [okBound] at h4
            have hnb : ¬ lineAt doc k0 < lineAt doc j := by
              intro hcon
              exact hb (by simp [beforeNext, hcon])
            have hk0k : lineAt doc k0 ≤ lineAt doc k := by
              rcases Nat.lt_or_ge k k0 with hlt | hge
              · exact absurd h3 (hleast k (by omega) hlt)
              · rcases Nat.eq_or_lt_of_le hge with rfl | hgt
                · exact Nat.le_refl _
                · exact Nat.le_of_lt (hmono k h2 k0 hgt)
            exact hnb (Nat.lt_of_le_of_lt hk0k h4)

theorem sectionsWalk_none (doc : List Node) (fuel : Nat) :
    sectionsWalk doc fuel none = [] := by
  cases fuel <;> rfl

theorem sectionsWalk_mem (doc : List Node)
    (hmono : ∀ b, b < doc.length → ∀ a, a < b → lineAt doc a < lineAt doc b) :
    ∀ fuel i, doc.length - i ≤ fuel →
      ∀ pr, pr ∈ sectionsWalk doc fuel (some i) →
        ∀ k, k ∈ pr.2 ↔ (pr.1 < k ∧ k < doc.length ∧ tagAt doc k = "h3" ∧
          okBound doc (findNext doc "h2" pr.1) k) := by
  intro fuel
  induction fuel with
  | zero =>
    intro i hi pr hpr
    simp [sectionsWalk] at hpr
  | succ fuel ih =>
    intro i hi pr hpr
    rw [sectionsWalk] at hpr
    rcases List.mem_cons.mp hpr with rfl | htail
    · intro k
      exact collectSubs_mem doc hmono (findNext doc "h2" i) doc.length i (by omega) k
    · cases hn : findNext doc "h2" i with
      | none =>
        rw [hn, sectionsWalk_none] at htail
        exact absurd htail (List.not_mem_nil pr)
      | some i' =>
        rw [hn] at htail
        obtain ⟨h1, h2, h3⟩ := findFromF_some doc "h2" i' doc.length (i + 1) hn
        exact ih i' (by omega) pr htail

/-- File operations performed on output sinks. -/
inductive SinkEvent where
  | openSink (name : String)
  | writeLine (sinkIdx : Nat) (line : String)
  | closeSink (sinkIdx : Nat)
deriving DecidableEq

/-- The csv filename of lines 40-41,
`{level}_{page_number}_{title_underbar}.csv`. -/
def fileName (level : String) (pageNumber : Nat) (titleUnderbar : String) : String :=
  level ++ "_" ++ toString pageNumber ++ "_" ++ titleUnderbar ++ ".csv"

/-- The header row written at lines 42-43. -/
def headerLine : String := "\"Section\",\"Subsection\",\"Word\""

/-- The text of one record row (lines 80-81). -/
def recordLine (r : WordRecord) : String :=
  "\"" ++ r.sec ++ "\",\"" ++ r.sub ++ "\",\"" ++ r.word ++ "\""

/-- The sequence of sink operations performed by one `parse` call on
its two per-level output sinks: two opens (lines 40-41), two header
writes (lines 42-43), and the record writes of the row loop (lines
79-81).  This list covers every `open`/`write` touching the sinks in
the body of `parse`; the source contains no call that closes them. -/
def parseSinkEvents (level0 level1 : String) (pageNumber : Nat)
    (titleUnderbar : String) (rows : List Row) (A : Finset String) :
    List SinkEvent :=
  [SinkEvent.openSink (fileName level0 pageNumber titleUnderbar),
   SinkEvent.openSink (fileName level1 pageNumber titleUnderbar),
   SinkEvent.writeLine 0 headerLine,
   SinkEvent.writeLine 1 headerLine]
  ++ (parsePage rows A).recs0.map (fun r => SinkEvent.writeLine 0 (recordLine r))
  ++ (parsePage rows A).recs1.map (fun r => SinkEvent.writeLine 1 (recordLine r))

/-- Claim C1: a token extracted from a cleaned cell is kept iff it
equals its own lowercase form and is not yet in the global vocabulary
at that moment; every kept token enters both the global vocabulary and
the per-cell set; and for the raw cell text "Casa, Árbol. Perro!!" the
cleaning yields the tokens Casa, Árbol, Perro, all of which are
discarded, keeping zero words. -/
theorem claim1_keep_condition :
    (∀ ws A, (keepLoop ws ∅ A).1 = keptSpec ws A
      ∧ (keepLoop ws ∅ A).2 = A ∪ (keepLoop ws ∅ A).1)
    ∧ splitSp (cleanText "Casa, Árbol. Perro!!") = ["Casa", "Árbol", "Perro"]
    ∧ (∀ sec sub A, (processCell sec sub "Casa, Árbol. Perro!!" A).kept = ∅
      ∧ (processCell sec sub "Casa, Árbol. Perro!!" A).countInc = 0) := by
  have hlower : lowerSpec (tokensOf "Casa, Árbol. Perro!!") = ∅ := by decide
  refine ⟨?_, by decide, ?_⟩
  · intro ws A
    refine ⟨?_, ?_⟩
    · rw [keepLoop_fst, Finset.empty_union]
    · rw [keepLoop_snd, keepLoop_fst, Finset.empty_union, union_keptSpec]
  · intro sec sub A
    have hk : (processCell sec sub "Casa, Árbol. Perro!!" A).kept = ∅ := by
      rw [processCell_kept]
      refine Finset.subset_empty.mp ?_
      rw [← hlower]
      exact keptSpec_subset_lowerSpec _ A
    refine ⟨hk, ?_⟩
    rw [processCell_countInc, hk]
    exact Finset.card_empty

/-- Claim C2: assuming strictly increasing source lines along the
document, the subsection headings the walk attributes to a section are
exactly the h3 nodes after it whose source line is strictly below the
next section heading's source line (all remaining h3 nodes when no
next section heading exists); hence an h3 node at or past the next
section heading's line is never attributed to the earlier section. -/
theorem claim2_subsection_attribution (doc : List Node)
    (hmono : ∀ b, b < doc.length → ∀ a, a < b → lineAt doc a < lineAt doc b)
    (i : Nat) (subs : List Nat) (hmem : (i, subs) ∈ parseSections doc) (k : Nat) :
    k ∈ subs ↔ (i < k ∧ k < doc.length ∧ tagAt doc k = "h3" ∧
      okBound doc (findNext doc "h2" i) k) := by
  rw [parseSections] at hmem
  cases hf : findFirst doc "h2" with
  | none =>
    rw [hf, sectionsWalk_none] at hmem
    exact absurd hmem (List.not_mem_nil _)
  | some i0 =>
    rw [hf] at hmem
    exact sectionsWalk_mem doc hmono doc.length i0 (by omega) (i, subs) hmem k

/-- A four-node document: two sections, each followed by one
subsection heading, with strictly increasing source lines. -/
def docW : List Node :=
  [⟨"h2", "Section one", 1⟩, ⟨"h3", "Sub one", 2⟩,
   ⟨"h2", "Section two", 3⟩, ⟨"h3", "Sub two", 4⟩]

/-- Witness for claim C2 at a concrete document. -/
theorem claim2_subsection_attribution_witness :
    (1 : Nat) ∈ [1] ↔ (0 < 1 ∧ 1 < docW.length ∧ tagAt docW 1 = "h3" ∧
      okBound docW (findNext docW "h2" 0) 1) :=
  claim2_subsection_attribution docW (by decide) 0 [1] (by decide) 1

/-- Claim C3: every record row written for a cell carries the real
section and subsection heading texts, but its word field is the fixed
literal string "word" (the source interpolates the section and
subsection into the f-string of line 81 but writes `"word"` verbatim),
and exactly one row is written per token of the per-cell kept set. -/
theorem claim3_literal_word_field (sec sub raw : String) (A : Finset String) :
    (∀ r, r ∈ (processCell sec sub raw A).records →
        r.word = "word" ∧ r.sec = sec ∧ r.sub = sub)
    ∧ (processCell sec sub raw A).records.length =
        (processCell sec sub raw A).kept.card := by
  constructor
  · intro r hr
    rw [processCell_records] at hr
    have hre := List.eq_of_mem_replicate hr
    subst hre
    exact ⟨rfl, rfl, rfl⟩
  · rw [processCell_records, List.length_replicate]

/-- Claim C4: deduplication is idempotent.  A parse enlarges the
vocabulary by exactly the distinct qualifying (fully lowercase) tokens
of its rows; re-parsing the same rows against the resulting vocabulary
returns the untouched initial page state (zero kept words, zero
counts, vocabulary unchanged); and a sequence of parses accumulates
exactly the union of the qualifying tokens of all pages, each counted
once however often it repeats. -/
theorem claim4_dedup_idempotent (rows rows2 : List Row) (A : Finset String) :
    (parsePage rows A).allWords = A ∪ rowsLower rows
    ∧ parsePage rows (parsePage rows A).allWords =
        initPage (parsePage rows A).allWords
    ∧ (parsePage rows2 (parsePage rows A).allWords).allWords =
        A ∪ (rowsLower rows ∪ rowsLower rows2)
    ∧ (parsePage rows ∅).allWords.card = (rowsLower rows).card := by
  have h1 : ∀ B, (parsePage rows B).allWords = B ∪ rowsLower rows := by
    intro B
    rw [parsePage, parseRows_allWords]
    rfl
  refine ⟨h1 A, ?_, ?_, ?_⟩
  · rw [parsePage]
    apply parseRows_stable
    rw [h1 A]
    show rowsLower rows ⊆ A ∪ rowsLower rows
    exact Finset.subset_union_right
  · rw [parsePage, parseRows_allWords, h1 A]
    show A ∪ rowsLower rows ∪ rowsLower rows2 = A ∪ (rowsLower rows ∪ rowsLower rows2)
    rw [Finset.union_assoc]
  · rw [h1 ∅, Finset.empty_union]

/-- Claim C5: the global vocabulary starts as the empty set (line 4,
`set('')`), and every operation of the run only enlarges it — the keep
loop, a page parse and the whole driver run each contain the incoming
vocabulary — and membership is exact, case-sensitive string equality:
a singleton set contains exactly its own string and not a
differently-capitalized variant. -/
theorem claim5_vocabulary_monotone :
    all_words_init = ∅
    ∧ initG.allWords = all_words_init
    ∧ (∀ ws S A, A ⊆ (keepLoop ws S A).2)
    ∧ (∀ rows A, A ⊆ (parsePage rows A).allWords)
    ∧ (∀ ds g, g.allWords ⊆ (runDocs ds g).allWords)
    ∧ (∀ w v : String, w ∈ ({v} : Finset String) ↔ w = v)
    ∧ "Hola" ∉ ({"hola"} : Finset String) := by
  refine ⟨rfl, rfl, ?_, ?_, ?_, ?_, by decide⟩
  · intro ws S A
    rw [keepLoop_snd]
    exact Finset.subset_union_left
  · intro rows A
    rw [parsePage, parseRows_allWords]
    exact Finset.subset_union_left
  · intro ds g
    exact runDocs_allWords_mono ds g
  · intro w v
    exact Finset.mem_singleton

/-- Claim C6: for any document list processed from the initial state,
the consolidated set for a level tag is exactly the union of the
per-document word sets the successive parse calls returned for that
level — set semantics, one occurrence per word, with no further
filtering at aggregation time. -/
theorem claim6_consolidated_union (ds : List Doc) (L : String) :
    (runDocs ds initG).byLevel L =
      attributedUnion L (runResults ds initG.allWords) := by
  rw [runDocs_byLevel]
  have hinit : initG.byLevel L = ∅ := rfl
  rw [hinit, Finset.empty_union]

/-- Claim C7 (refuted by the source): the trace of sink operations a
`parse` call performs consists of opens and writes only — the source
never closes the two per-document csv sinks, for no input whatsoever,
so they are not closed upon returning from `parse`. -/
theorem claim7_parse_never_closes_sinks (level0 level1 : String)
    (pageNumber : Nat) (titleUnderbar : String) (rows : List Row)
    (A : Finset String) (i : Nat) :
    SinkEvent.closeSink i ∉
      parseSinkEvents level0 level1 pageNumber titleUnderbar rows A := by
  intro h
  simp [parseSinkEvents] at h

/-- Claim C8: for the raw cell text "hola adiós hola" with neither
word in the vocabulary, splitting the cleaned text yields the three
tokens hola, adiós, hola; the per-cell kept set is exactly the
two-element set of hola and adiós; the count increases by exactly 2;
and both words are added to the vocabulary. -/
theorem claim8_hola_adios (sec sub : String) (A : Finset String)
    (h1 : "hola" ∉ A) (h2 : "adiós" ∉ A) :
    splitSp (cleanText "hola adiós hola") = ["hola", "adiós", "hola"]
    ∧ (processCell sec sub "hola adiós hola" A).kept = {"hola", "adiós"}
    ∧ (processCell sec sub "hola adiós hola" A).countInc = 2
    ∧ (processCell sec sub "hola adiós hola" A).allWords =
        A ∪ {"hola", "adiós"} := by
  have htok : tokensOf "hola adiós hola" = ["hola", "adiós", "hola"] := by decide
  have hkept : (processCell sec sub "hola adiós hola" A).kept = {"hola", "adiós"} := by
    rw [processCell_kept, htok]
    ext x
    rw [mem_keptSpec]
    simp only [List.mem_cons, List.not_mem_nil, or_false,
      Finset.mem_insert, Finset.mem_singleton]
    constructor
    · rintro ⟨rfl | rfl | rfl, hlow, hA⟩
      · exact Or.inl rfl
      · exact Or.inr rfl
      · exact Or.inl rfl
    · rintro (rfl | rfl)
      · exact ⟨Or.inl rfl, by decide, h1⟩
      · exact ⟨Or.inr (Or.inl rfl), by decide, h2⟩
  refine ⟨by decide, hkept, ?_, ?_⟩
  · rw [processCell_countInc, hkept]
    decide
  · rw [processCell_allWords]
    have hcl : cellLower "hola adiós hola" = {"hola", "adiós"} := by decide
    rw [hcl]

/-- Witness for claim C8 at the empty vocabulary. -/
theorem claim8_hola_adios_witness :
    "hola" ∉ (∅ : Finset String)
    ∧ (splitSp (cleanText "hola adiós hola") = ["hola", "adiós", "hola"]
      ∧ (processCell "s" "t" "hola adiós hola" ∅).kept = {"hola", "adiós"}
      ∧ (processCell "s" "t" "hola adiós hola" ∅).countInc = 2
      ∧ (processCell "s" "t" "hola adiós hola" ∅).allWords =
          ∅ ∪ {"hola", "adiós"}) :=
  ⟨by decide, claim8_hola_adios "s" "t" ∅ (by decide) (by decide)⟩

/-- Claim C9: a cell whose cleaned text is empty is skipped entirely —
no records are written, nothing is kept, the vocabulary is unchanged
and the count increment is zero. -/
theorem claim9_empty_cell_skipped (sec sub raw : String) (A : Finset String)
    (h : cleanText raw = "") :
    (processCell sec sub raw A).records = []
    ∧ (processCell sec sub raw A).kept = ∅
    ∧ (processCell sec sub raw A).allWords = A
    ∧ (processCell sec sub raw A).countInc = 0 := by
  refine ⟨?_, ?_, ?_, ?_⟩ <;> simp [processCell, h]

/-- Witness for claim C9 on a cell with no Spanish letters. -/
theorem claim9_empty_cell_skipped_witness :
    cleanText "1984!?" = ""
    ∧ ((processCell "s" "t" "1984!?" {"hola"}).records = []
      ∧ (processCell "s" "t" "1984!?" {"hola"}).kept = ∅
      ∧ (processCell "s" "t" "1984!?" {"hola"}).allWords = {"hola"}
      ∧ (processCell "s" "t" "1984!?" {"hola"}).countInc = 0) :=
  ⟨by decide, claim9_empty_cell_skipped "s" "t" "1984!?" {"hola"} (by decide)⟩

/-- Claim C10: over a run whose documents all carry level tags among
the six known ones, the per-level word sets are pairwise disjoint, each
is contained in the global vocabulary, their union over the six tags
equals the global vocabulary, and the printed total (the vocabulary
size) equals the sum of the six per-level sizes. -/
theorem claim10_levels_partition (ds : List Doc)
    (h : ∀ d, d ∈ ds → d.level0 ∈ all_levels ∧ d.level1 ∈ all_levels) :
    (∀ L1 L2, L1 ≠ L2 →
        Disjoint ((runDocs ds initG).byLevel L1) ((runDocs ds initG).byLevel L2))
    ∧ (∀ L, (runDocs ds initG).byLevel L ⊆ (runDocs ds initG).allWords)
    ∧ listUnion all_levels (runDocs ds initG).byLevel = (runDocs ds initG).allWords
    ∧ (runDocs ds initG).allWords.card =
        (all_levels.map (fun L => ((runDocs ds initG).byLevel L).card)).sum := by
  obtain ⟨hpair, hun, hsub⟩ := runDocs_inv ds initG h GInv_initG
  refine ⟨hpair, hsub, hun, ?_⟩
  rw [← hun]
  exact listUnion_card all_levels _ (by decide)
    (fun L1 hL1 L2 hL2 hne => hpair L1 L2 hne)

/-- A one-document run used as witness input. -/
def docsW : List Doc :=
  [⟨"A1", "A2", [(("Quantity", "Number"), ("hola casa", "perro Árbol"))]⟩]

/-- Witness for claim C10 at a concrete run. -/
theorem claim10_levels_partition_witness :
    (∀ d, d ∈ docsW → d.level0 ∈ all_levels ∧ d.level1 ∈ all_levels)
    ∧ ((∀ L1 L2, L1 ≠ L2 →
        Disjoint ((runDocs docsW initG).byLevel L1) ((runDocs docsW initG).byLevel L2))
      ∧ (∀ L, (runDocs docsW initG).byLevel L ⊆ (runDocs docsW initG).allWords)
      ∧ listUnion all_levels (runDocs docsW initG).byLevel = (runDocs docsW initG).allWords
      ∧ (runDocs docsW initG).allWords.card =
          (all_levels.map (fun L => ((runDocs docsW initG).byLevel L).card)).sum) :=
  ⟨by decide, claim10_levels_partition docsW (by decide)⟩

end SpanishWords
